import Mathlib

/-
Verification of the quaternion-matrix image-recovery core
(`image_recovery/linalg.py`): quaternion algebra primitives, the
quaternion-to-complex matrix isomorphism, and the rank-adaptive
completion loop `lrqmc`.

Numeric values are embedded as exact rationals (ℚ); complex entries as
pairs of rationals.  External library routines that the source calls
(scipy's `pinv` and `eigvalsh`, numpy's `linalg.norm` and the seeded
uniform random generator) are modelled as oracle parameters: their
shapes follow the library contracts structurally, their numeric values
are unconstrained, so every theorem below holds for any behaviour of
those libraries.
-/

namespace ImgRec

/-- Sum of `f 0 + f 1 + ... + f (n-1)`, the embedding of numpy `.sum()`
over an index range. -/
def sumTo (f : ℕ → ℚ) : ℕ → ℚ
  | 0 => 0
  | n + 1 => sumTo f n + f n

theorem sumTo_congr (f g : ℕ → ℚ) (n : ℕ) (h : ∀ i, i < n → f i = g i) :
    sumTo f n = sumTo g n := by
  induction n with
  | zero => rfl
  | succ k ih =>
    simp only [sumTo]
    rw [ih (fun i hi => h i (Nat.lt_succ_of_lt hi)), h k (Nat.lt_succ_self k)]

theorem sumTo_add_split (f : ℕ → ℚ) (a b : ℕ) :
    sumTo f (a + b) = sumTo f a + sumTo (fun i => f (a + i)) b := by
  induction b with
  | zero => simp [sumTo]
  | succ k ih => rw [Nat.add_succ]; simp only [sumTo]; rw [ih]; ring

theorem sumTo_add_distrib (f g : ℕ → ℚ) (n : ℕ) :
    sumTo (fun i => f i + g i) n = sumTo f n + sumTo g n := by
  induction n with
  | zero => simp [sumTo]
  | succ k ih => simp only [sumTo, ih]; ring

theorem sumTo_nonneg (f : ℕ → ℚ) (n : ℕ) (h : ∀ i, 0 ≤ f i) : 0 ≤ sumTo f n := by
  induction n with
  | zero => simp [sumTo]
  | succ k ih => simpa [sumTo] using add_nonneg ih (h k)

/-- A complex number with exact rational real and imaginary parts,
standing in for one complex floating-point scalar. -/
structure CQ where
  re : ℚ
  im : ℚ
deriving DecidableEq

instance : Zero CQ := ⟨⟨0, 0⟩⟩
instance : Add CQ := ⟨fun a b => ⟨a.re + b.re, a.im + b.im⟩⟩
instance : Neg CQ := ⟨fun a => ⟨-a.re, -a.im⟩⟩
instance : Sub CQ := ⟨fun a b => ⟨a.re - b.re, a.im - b.im⟩⟩
instance : Mul CQ := ⟨fun a b => ⟨a.re * b.re - a.im * b.im, a.re * b.im + a.im * b.re⟩⟩
instance : Inhabited CQ := ⟨0⟩

/-- Complex conjugation, the embedding of `np.conj` on one entry. -/
def CQ.conj (z : CQ) : CQ := ⟨z.re, -z.im⟩

/-- Squared modulus of a complex scalar. -/
def CQ.normSq (z : CQ) : ℚ := z.re ^ 2 + z.im ^ 2

theorem CQ.normSq_conj (z : CQ) : z.conj.normSq = z.normSq := by
  simp [CQ.conj, CQ.normSq]

theorem CQ.neg_def (z : CQ) : -z = ⟨-z.re, -z.im⟩ := rfl

theorem CQ.normSq_neg (z : CQ) : (-z).normSq = z.normSq := by
  simp only [CQ.neg_def, CQ.normSq]; ring

theorem CQ.zero_def : (0 : CQ) = ⟨0, 0⟩ := rfl

theorem CQ.add_def (a b : CQ) : a + b = ⟨a.re + b.re, a.im + b.im⟩ := rfl

theorem CQ.mul_def (a b : CQ) :
    a * b = ⟨a.re * b.re - a.im * b.im, a.re * b.im + a.im * b.re⟩ := rfl

theorem CQ.zero_mul (z : CQ) : (0 : CQ) * z = 0 := by
  simp [CQ.mul_def, CQ.zero_def]

theorem CQ.mul_zero (z : CQ) : z * (0 : CQ) = 0 := by
  simp [CQ.mul_def, CQ.zero_def]

theorem CQ.add_zero (z : CQ) : z + (0 : CQ) = z := by
  simp [CQ.add_def, CQ.zero_def]

/-- A numpy real 3-tensor of shape `(n, m, k)`; for quaternion matrices
`k = 4`.  `data` is total; only indices below the bounds are meaningful,
matching numpy's dense storage. -/
structure Tensor3 where
  n : ℕ
  m : ℕ
  k : ℕ
  data : ℕ → ℕ → ℕ → ℚ

instance : Inhabited Tensor3 := ⟨⟨0, 0, 0, fun _ _ _ => 0⟩⟩

/-- A numpy complex 2-d array of shape `(n, m)`. -/
structure CTensor where
  n : ℕ
  m : ℕ
  data : ℕ → ℕ → CQ

instance : Inhabited CTensor := ⟨⟨0, 0, fun _ _ => 0⟩⟩

/-- A numpy boolean 2-d array of shape `(n, m)` (an observation mask). -/
structure BTensor where
  n : ℕ
  m : ℕ
  data : ℕ → ℕ → Bool

instance : Inhabited BTensor := ⟨⟨0, 0, fun _ _ => false⟩⟩

/-- Numpy array equality `==` on 3-tensors: same shape and equal entries
at every in-range index. -/
def Tensor3.ExtEq (A B : Tensor3) : Prop :=
  A.n = B.n ∧ A.m = B.m ∧ A.k = B.k ∧
    ∀ i, i < A.n → ∀ j, j < A.m → ∀ c, c < A.k → A.data i j c = B.data i j c

/-- Embedding of `conjugate` (linalg.py:12): shape check, then the real
component is kept and the three imaginary components are negated
(`np.concatenate([Q[:, :, :1], -Q[:, :, 1:]], axis=2)`). -/
def conjugate (Q : Tensor3) : Except String Tensor3 :=
  if Q.k ≠ 4 then Except.error "Wrong tensor shape"
  else Except.ok ⟨Q.n, Q.m, Q.k, fun i j c => if c = 0 then Q.data i j c else -Q.data i j c⟩

/-- Sum of squares of every entry of a 3-tensor, the body of
`np.power(Q, 2).sum()` in `frobenius_norm` (linalg.py:63). -/
def sumSq (Q : Tensor3) : ℚ :=
  sumTo (fun i => sumTo (fun j => sumTo (fun c => Q.data i j c ^ 2) Q.k) Q.m) Q.n

/-- Embedding of `frobenius_norm` (linalg.py:40) up to the final real
square root: the shape check and the sum of squares.  The theorems apply
`Real.sqrt` to the returned value, matching `np.sqrt` in the source. -/
def frobenius_normSq (Q : Tensor3) : Except String ℚ :=
  if Q.k ≠ 4 then Except.error "Wrong tensor shape"
  else Except.ok (sumSq Q)

/-- Channel permutation applied to `Q2` in component `c` of `qdot`
(linalg.py:91-96): identity, `(1,0,3,2)`, `(2,3,0,1)`, `(3,2,1,0)`. -/
def qdotPerm (c t : ℕ) : ℕ :=
  if c = 0 then t
  else if c = 1 then (if t = 0 then 1 else if t = 1 then 0 else if t = 2 then 3 else 2)
  else if c = 2 then (if t = 0 then 2 else if t = 1 then 3 else if t = 2 then 0 else 1)
  else (if t = 0 then 3 else if t = 1 then 2 else if t = 2 then 1 else 0)

/-- Sign pattern applied to `Q2` in component `c` of `qdot`
(linalg.py:91-96): `(+,-,-,-)`, `(+,+,+,-)`, `(+,-,+,+)`, `(+,+,-,+)`. -/
def qdotSign (c t : ℕ) : ℚ :=
  if c = 0 then (if t = 0 then 1 else -1)
  else if c = 1 then (if t = 3 then -1 else 1)
  else if c = 2 then (if t = 1 then -1 else 1)
  else (if t = 2 then -1 else 1)

/-- Embedding of `qdot` (linalg.py:66): quaternion matrix product via
four einsum contractions over the inner and channel axes, after the
shape checks of linalg.py:88. -/
def qdot (Q1 Q2 : Tensor3) : Except String Tensor3 :=
  if (Q1.k ≠ 4 ∨ Q2.k ≠ 4) ∨ Q1.m ≠ Q2.n then
    Except.error "Wrong tensor shape or shapes mismatch"
  else Except.ok ⟨Q1.n, Q2.m, 4, fun i j c =>
    sumTo (fun s => sumTo (fun t => Q1.data i s t * (qdotSign c t * Q2.data s j (qdotPerm c t))) 4) Q1.m⟩

/-- The matrix part of `qm2cm` (linalg.py:129-135): block matrix
`[[Qa, Qb], [-conj Qb, conj Qa]]` with `Qa = Q0 + i Q1`, `Qb = Q2 + i Q3`. -/
def qm2cmMat (Q : Tensor3) : CTensor :=
  ⟨2 * Q.n, 2 * Q.m, fun i j =>
    if i < Q.n then
      if j < Q.m then ⟨Q.data i j 0, Q.data i j 1⟩
      else ⟨Q.data i (j - Q.m) 2, Q.data i (j - Q.m) 3⟩
    else
      if j < Q.m then -CQ.conj ⟨Q.data (i - Q.n) j 2, Q.data (i - Q.n) j 3⟩
      else CQ.conj ⟨Q.data (i - Q.n) (j - Q.m) 0, Q.data (i - Q.n) (j - Q.m) 1⟩⟩

/-- Embedding of `np.tile(mask, (2, 2))` (linalg.py:140): the mask
replicated into the four quadrants of the `(2n, 2m)` shape. -/
def tileMask (mask : BTensor) : BTensor :=
  ⟨2 * mask.n, 2 * mask.m, fun i j => mask.data (i % mask.n) (j % mask.m)⟩

/-- Embedding of `qm2cm` (linalg.py:104): shape check, complex block
matrix, and the optionally tiled mask. -/
def qm2cm (Q : Tensor3) (mask : Option BTensor) : Except String (CTensor × Option BTensor) :=
  if Q.k ≠ 4 then Except.error "Wrong tensor shape or shapes mismatch"
  else Except.ok (qm2cmMat Q, mask.map tileMask)

/-- The tensor part of `cm2qm` (linalg.py:170-175): take the top-left
quadrant as `Qa`, the top-right as `Qb`, and stack their real and
imaginary parts. -/
def cm2qmMat (C : CTensor) : Tensor3 :=
  ⟨C.n / 2, C.m / 2, 4, fun i j c =>
    if c = 0 then (C.data i j).re
    else if c = 1 then (C.data i j).im
    else if c = 2 then (C.data i (C.m / 2 + j)).re
    else (C.data i (C.m / 2 + j)).im⟩

/-- Embedding of `cm2qm` (linalg.py:145): odd-shape check, then the
quadrant reconstruction. -/
def cm2qm (C : CTensor) : Except String Tensor3 :=
  if C.n % 2 ≠ 0 ∨ C.m % 2 ≠ 0 then Except.error "Supplied matrix has odd shape"
  else Except.ok (cm2qmMat C)

/-- Sum of squared moduli of every entry of a complex matrix: the
squared complex Frobenius norm. -/
def cSumSq (C : CTensor) : ℚ :=
  sumTo (fun i => sumTo (fun j => (C.data i j).normSq) C.m) C.n

/-- Complex matrix product `A.dot(B)`, contracting over `A`'s column
count (shapes always agree at every call site in `lrqmc`). -/
def csumTo (f : ℕ → CQ) : ℕ → CQ
  | 0 => 0
  | n + 1 => csumTo f n + f n

theorem csumTo_eq_zero (f : ℕ → CQ) (n : ℕ) (h : ∀ s, s < n → f s = 0) :
    csumTo f n = 0 := by
  induction n with
  | zero => rfl
  | succ k ih =>
    simp only [csumTo]
    rw [ih (fun s hs => h s (Nat.lt_succ_of_lt hs)), h k (Nat.lt_succ_self k), CQ.add_zero]

def cmul (A B : CTensor) : CTensor :=
  ⟨A.n, B.m, fun i j => csumTo (fun s => A.data i s * B.data s j) A.m⟩

/-- Conjugate transpose `np.conj(A.T)`. -/
def conjT (A : CTensor) : CTensor :=
  ⟨A.m, A.n, fun i j => (A.data j i).conj⟩

/-- Elementwise matrix difference `A - B` (shapes agree at call sites). -/
def matSub (A B : CTensor) : CTensor :=
  ⟨A.n, A.m, fun i j => A.data i j - B.data i j⟩

/-- Embedding of `A + reg_coef * np.eye(k)` for the square matrices of
the factor updates, where `k` equals `A`'s own dimension at every call
site in `lrqmc` (numpy would refuse mismatched shapes). -/
def regEye (A : CTensor) (lam : ℚ) : CTensor :=
  ⟨A.n, A.m, fun i j => A.data i j + (if i = j then ⟨lam, 0⟩ else 0)⟩

/-- Numpy column slice `A[:, :r]` (clamped like numpy slicing). -/
def sliceCols (A : CTensor) (r : ℕ) : CTensor :=
  ⟨A.n, min r A.m, A.data⟩

/-- Numpy row slice `A[:r, :]` (clamped like numpy slicing). -/
def sliceRows (A : CTensor) (r : ℕ) : CTensor :=
  ⟨min r A.n, A.m, A.data⟩

/-- Insert a value into a descending-sorted list of rationals. -/
def insertDesc (x : ℚ) : List ℚ → List ℚ
  | [] => [x]
  | y :: ys => if y ≤ x then x :: y :: ys else y :: insertDesc x ys

/-- Sort a list of rationals in descending order: the embedding of
`np.sort(...)[::-1]` (linalg.py:256). -/
def sortDesc : List ℚ → List ℚ
  | [] => []
  | x :: xs => insertDesc x (sortDesc xs)

theorem insertDesc_length (x : ℚ) (l : List ℚ) :
    (insertDesc x l).length = l.length + 1 := by
  induction l with
  | nil => rfl
  | cons y ys ih =>
    simp only [insertDesc]
    split
    · rfl
    · simp [ih]

theorem sortDesc_length (l : List ℚ) : (sortDesc l).length = l.length := by
  induction l with
  | nil => rfl
  | cons x xs ih => simp [sortDesc, insertDesc_length, ih]

/-- Index of the first occurrence of the maximum of a list, the
embedding of `np.argmax` (linalg.py:258); `0` on the empty list (where
numpy raises, a situation `lrqmc` only meets for ranks below 2). -/
def argmax : List ℚ → ℕ
  | [] => 0
  | [_] => 0
  | x :: xs => if x < (xs.getD (argmax xs) 0) then argmax xs + 1 else 0

theorem argmax_lt_length (l : List ℚ) (h : l ≠ []) : argmax l < l.length := by
  induction l with
  | nil => exact absurd rfl h
  | cons x xs ih =>
    rcases xs with _ | ⟨y, ys⟩
    · simp [argmax]
    · simp only [argmax]
      split
      · have := ih (by simp)
        simpa [List.length_cons] using Nat.succ_lt_succ this
      · simp

/-- Python `int()` applied to a rational: truncation toward zero. -/
def truncInt (q : ℚ) : ℤ := if 0 ≤ q then ⌊q⌋ else ⌈q⌉

/-- In-place write `xs[i] = v` on a numpy 1-d array: raises an index
error when `i` is out of bounds, as numpy does (linalg.py:266). -/
def npSet (xs : List ℚ) (i : ℕ) (v : ℚ) : Except String (List ℚ) :=
  if i < xs.length then Except.ok (xs.set i v) else Except.error "index out of bounds"

/-- Oracle bundle for the external library routines used by `lrqmc`:
scipy `pinv` entries, scipy `eigvalsh` values, numpy `linalg.norm`, and
the seeded global numpy random generator (state modelled as ℕ, `u s i`
the i-th value of the stream in state `s`, `adv s c` the state after
drawing `c` values, `seedFn` the state set by `np.random.seed(int)`,
`entropy` the state set by `np.random.seed(None)`). -/
structure Oracles where
  pinvData : CTensor → ℕ → ℕ → CQ
  eig : CTensor → ℕ → ℚ
  fro : CTensor → ℚ
  seedFn : ℤ → ℕ
  entropy : ℕ → ℕ
  u : ℕ → ℕ → ℚ
  adv : ℕ → ℕ → ℕ

/-- Shape-respecting wrapper of the `pinv` oracle: the pseudoinverse of
an `n × m` matrix is `m × n` (scipy's contract); the entries come from
the oracle. -/
def pinvT (O : Oracles) (A : CTensor) : CTensor := ⟨A.m, A.n, O.pinvData A⟩

/-- State carried through the `lrqmc` while-loop: the working matrix
`X`, the factors `U`, `V`, and the current rank estimate `c_rank`. -/
structure LoopState where
  X : CTensor
  U : CTensor
  V : CTensor
  c_rank : ℕ

instance : Inhabited LoopState := ⟨⟨default, default, default, 0⟩⟩

/-- Factor update of linalg.py:251:
`U = (X.dot(conj(V.T))).dot(pinv(V.dot(conj(V.T)) + reg_coef*eye))`. -/
def newU (O : Oracles) (lam : ℚ) (st : LoopState) : CTensor :=
  cmul (cmul st.X (conjT st.V)) (pinvT O (regEye (cmul st.V (conjT st.V)) lam))

/-- Factor update of linalg.py:252, with the already-updated `U`:
`V = pinv(conj(U.T).dot(U) + reg_coef*eye).dot(conj(U.T).dot(X))`. -/
def newV (O : Oracles) (lam : ℚ) (st : LoopState) : CTensor :=
  cmul (pinvT O (regEye (cmul (conjT (newU O lam st)) (newU O lam st)) lam))
    (cmul (conjT (newU O lam st)) st.X)

/-- The matrix re-imposition of linalg.py:253-254:
`X = X0.copy(); X[~mask_c] += (U.dot(V))[~mask_c]` — observed entries
are reset to `X0`, unobserved entries receive `X0` plus the estimate. -/
def reimpose (X0 : CTensor) (maskC : BTensor) (E : CTensor) : CTensor :=
  ⟨X0.n, X0.m, fun i j =>
    if maskC.data i j then X0.data i j else X0.data i j + E.data i j⟩

/-- Descending eigenvalue list of `conj(U.T).dot(U)` (linalg.py:256):
`eigvalsh` values from the oracle, one per row of the square argument,
sorted descending. -/
def eigsOf (O : Oracles) (lam : ℚ) (st : LoopState) : List ℚ :=
  sortDesc ((List.range (cmul (conjT (newU O lam st)) (newU O lam st)).n).map
    (O.eig (cmul (conjT (newU O lam st)) (newU O lam st))))

/-- Consecutive eigenvalue ratios `eigvs[:-1]/eigvs[1:]` (linalg.py:257). -/
def quotsOf (O : Oracles) (lam : ℚ) (st : LoopState) : List ℚ :=
  List.zipWith (fun a b => a / b) (eigsOf O lam st) (eigsOf O lam st).tail

/-- Index of the maximal consecutive eigenvalue ratio (linalg.py:258). -/
def kOf (O : Oracles) (lam : ℚ) (st : LoopState) : ℕ := argmax (quotsOf O lam st)

/-- The rank-overestimation statistic `mu` of linalg.py:259. -/
def muOf (O : Oracles) (lam : ℚ) (st : LoopState) : ℚ :=
  ((st.c_rank : ℚ) - 1) * (eigsOf O lam st).getD (kOf O lam st) 0 /
    ((eigsOf O lam st).sum - (eigsOf O lam st).getD (kOf O lam st) 0)

/-- The shrunk rank `max(max_ind + 2, int(c_rank * rank_mult))` of
linalg.py:262. -/
def shrunkRank (O : Oracles) (lam rank_mult : ℚ) (st : LoopState) : ℕ :=
  max (kOf O lam st + 2) (truncInt ((st.c_rank : ℚ) * rank_mult)).toNat

/-- One pass of the while-loop body of `lrqmc` (linalg.py:251-264),
excluding the norm bookkeeping: factor updates, re-imposition of the
known values, and the conditional rank shrink with truncation of `U`'s
columns and `V`'s rows (the shrink never touches `X`). -/
def stepState (O : Oracles) (lam rot rank_mult : ℚ) (X0 : CTensor) (maskC : BTensor)
    (st : LoopState) : LoopState :=
  ⟨reimpose X0 maskC (cmul (newU O lam st) (newV O lam st)),
    if rot < muOf O lam st then sliceCols (newU O lam st) (shrunkRank O lam rank_mult st)
      else newU O lam st,
    if rot < muOf O lam st then sliceRows (newV O lam st) (shrunkRank O lam rank_mult st)
      else newV O lam st,
    if rot < muOf O lam st then shrunkRank O lam rank_mult st else st.c_rank⟩

/-- The while-loop of `lrqmc` (linalg.py:250-284): run the body, write
the new norm at `ix + 1` (an out-of-bounds write is an index error, as
in numpy), then terminate on relative tolerance, terminate on iteration
exhaustion, or continue with `ix + 1`.  `fuel` only bounds the
recursion; `lrqmc` supplies `max_iter + 2`, which the `ix`-counting
makes unreachable. -/
def lrqmcLoop (O : Oracles) (lam rot rank_mult rel_tol : ℚ) (max_iter : ℕ)
    (X0 : CTensor) (maskC : BTensor) :
    ℕ → ℕ → LoopState → List ℚ → Except String (LoopState × List ℚ)
  | 0, _, _, _ => Except.error "loop fuel exhausted"
  | fuel + 1, ix, st, norms =>
    match npSet norms (ix + 1)
        (O.fro (matSub (stepState O lam rot rank_mult X0 maskC st).X
          (cmul (stepState O lam rot rank_mult X0 maskC st).U
            (stepState O lam rot rank_mult X0 maskC st).V))) with
    | Except.error e => Except.error e
    | Except.ok norms1 =>
      if |norms1.getD (ix + 1) 0 - norms1.getD ix 0| / norms1.getD ix 0 < rel_tol then
        Except.ok (stepState O lam rot rank_mult X0 maskC st, norms1)
      else if max_iter ≤ ix then
        Except.ok (stepState O lam rot rank_mult X0 maskC st, norms1)
      else
        lrqmcLoop O lam rot rank_mult rel_tol max_iter X0 maskC fuel (ix + 1)
          (stepState O lam rot rank_mult X0 maskC st) norms1

/-- Rank selection of linalg.py:235-238: `min(N, M)` when `init_rank`
is absent, zero, or above `min(N, M)`; otherwise `init_rank` itself. -/
def c_rank_of (init_rank : Option ℤ) (n m : ℕ) : ℤ :=
  match init_rank with
  | none => (min n m : ℤ)
  | some r => if r = 0 ∨ (min n m : ℤ) < r then (min n m : ℤ) else r

/-- Global numpy generator state after `np.random.seed(random_state)`
(linalg.py:240): an integer seed fully determines the state; `None`
reseeds from entropy, modelled from the incoming global state `g0`. -/
def seedState (O : Oracles) (g0 : ℕ) (random_state : Option ℤ) : ℕ :=
  match random_state with
  | some s => O.seedFn s
  | none => O.entropy g0

/-- A complex matrix `uniform(size=(nr, nc)) + 1j*uniform(size=(nr, nc))`
drawn from generator state `s`: the real part consumes `nr * nc` stream
values, then the imaginary part consumes the next `nr * nc`. -/
def uniformC (O : Oracles) (s : ℕ) (nr nc : ℕ) : CTensor :=
  ⟨nr, nc, fun i j => ⟨O.u s (i * nc + j), O.u (O.adv s (nr * nc)) (i * nc + j)⟩⟩

/-- The initial factor `U` of linalg.py:241. -/
def initU (O : Oracles) (g0 : ℕ) (rs : Option ℤ) (n r : ℕ) : CTensor :=
  uniformC O (seedState O g0 rs) (2 * n) r

/-- The initial factor `V` of linalg.py:242, drawn after both `U`
draws advanced the generator state. -/
def initV (O : Oracles) (g0 : ℕ) (rs : Option ℤ) (n m r : ℕ) : CTensor :=
  uniformC O (O.adv (O.adv (seedState O g0 rs) (2 * n * r)) (2 * n * r)) r (2 * m)

/-- Embedding of `lrqmc` (linalg.py:183-289): isomorphism to the
complex matrix and tiled mask, rank selection, seeded random factor
initialization, the norm array of length `max_iter + 1` with the
iteration-0 norm, the while-loop, and the inverse isomorphism on the
final `X`.  Progress printing (a side channel) is omitted. -/
def lrqmc (O : Oracles) (g0 : ℕ) (qmat : Tensor3) (mask : BTensor)
    (init_rank : Option ℤ) (reg_coef : ℚ) (max_iter : ℕ) (rel_tol rot rank_mult : ℚ)
    (return_norms : Bool) (random_state : Option ℤ) :
    Except String (Tensor3 × CTensor × CTensor × Option (List ℚ)) :=
  match qm2cm qmat (some mask) with
  | Except.error e => Except.error e
  | Except.ok Xm =>
    match npSet (List.replicate (max_iter + 1) 0) 0
        (O.fro (matSub Xm.1
          (cmul (initU O g0 random_state qmat.n (c_rank_of init_rank qmat.n qmat.m).toNat)
            (initV O g0 random_state qmat.n qmat.m
              (c_rank_of init_rank qmat.n qmat.m).toNat)))) with
    | Except.error e => Except.error e
    | Except.ok norms0 =>
      match lrqmcLoop O reg_coef rot rank_mult rel_tol max_iter Xm.1
          (Xm.2.getD default) (max_iter + 2) 0
          ⟨Xm.1,
            initU O g0 random_state qmat.n (c_rank_of init_rank qmat.n qmat.m).toNat,
            initV O g0 random_state qmat.n qmat.m (c_rank_of init_rank qmat.n qmat.m).toNat,
            (c_rank_of init_rank qmat.n qmat.m).toNat⟩ norms0 with
      | Except.error e => Except.error e
      | Except.ok r =>
        match cm2qm r.1.X with
        | Except.error e => Except.error e
        | Except.ok q =>
          Except.ok (q, r.1.U, r.1.V, if return_norms then some r.2 else none)

end ImgRec


namespace ImgRec

/-! Claim C3: rank selection. -/

/-- Claim C3 as stated is false: the source (linalg.py:235-238) only
replaces `init_rank` by `min(N, M)` when it is falsy (absent or zero)
or larger than `min(N, M)`; the value `1` is kept, so the rank used is
`1`, not `2`, and lies outside `[2, min(N, M)]`. -/
theorem claim3_counterexample :
    c_rank_of (some 1) 3 3 = 1 ∧ ¬ (2 ≤ c_rank_of (some 1) 3 3) := by
  constructor
  · simp [c_rank_of]
  · simp [c_rank_of]

/-- Claim C3, amended: the rank used equals the supplied `r0` whenever
`r0` is nonzero and at most `min(N, M)` — even when it is below 2 —
and equals `min(N, M)` when `r0` is absent, zero, or above `min(N, M)`;
no clamping to 2 takes place. -/
theorem claim3_rank_selection (r : ℤ) (n m : ℕ) :
    c_rank_of none n m = (min n m : ℤ) ∧
    (r ≠ 0 → r ≤ (min n m : ℤ) → c_rank_of (some r) n m = r) ∧
    (r = 0 ∨ (min n m : ℤ) < r → c_rank_of (some r) n m = (min n m : ℤ)) := by
  refine ⟨rfl, fun h1 h2 => ?_, fun h => ?_⟩
  · simp only [c_rank_of]
    rw [if_neg]
    push_neg
    exact ⟨h1, h2⟩
  · simp only [c_rank_of]
    rw [if_pos h]

/-- Witness for the amended claim C3 at concrete inputs. -/
theorem claim3_witness :
    c_rank_of (some 2) 3 5 = 2 ∧ c_rank_of (some 7) 3 5 = (min 3 5 : ℤ) :=
  ⟨(claim3_rank_selection 2 3 5).2.1 (by decide) (by decide),
   (claim3_rank_selection 7 3 5).2.2 (Or.inr (by decide))⟩

/-! Claim C9: shape contracts. -/

/-- Claim C9: every quaternion-algebra and forward-isomorphism function
rejects a tensor whose last axis is not length 4 with a shape error and
no partial result; `qdot` also rejects mismatched inner dimensions; and
`cm2qm` rejects any complex matrix with an odd row or column count. -/
theorem claim9_shape_errors (Q Q2 : Tensor3) (C : CTensor) (m : Option BTensor) :
    (Q.k ≠ 4 →
      conjugate Q = Except.error "Wrong tensor shape" ∧
      frobenius_normSq Q = Except.error "Wrong tensor shape" ∧
      qdot Q Q2 = Except.error "Wrong tensor shape or shapes mismatch" ∧
      qdot Q2 Q = Except.error "Wrong tensor shape or shapes mismatch" ∧
      qm2cm Q m = Except.error "Wrong tensor shape or shapes mismatch") ∧
    (Q.m ≠ Q2.n → qdot Q Q2 = Except.error "Wrong tensor shape or shapes mismatch") ∧
    (C.n % 2 ≠ 0 ∨ C.m % 2 ≠ 0 → cm2qm C = Except.error "Supplied matrix has odd shape") := by
  refine ⟨fun h => ⟨?_, ?_, ?_, ?_, ?_⟩, fun h => ?_, fun h => ?_⟩
  · simp [conjugate, h]
  · simp [frobenius_normSq, h]
  · simp [qdot, h]
  · simp [qdot, h]
  · simp [qm2cm, h]
  · simp [qdot, h]
  · unfold cm2qm
    rw [if_pos h]

/-- Witness for claim C9 at concrete shapes: a `1 × 1 × 3` tensor, a
`1 × 2 × 4` against `3 × 1 × 4` mismatch, and a `3 × 2` complex matrix. -/
theorem claim9_witness :
    conjugate ⟨1, 1, 3, fun _ _ _ => 0⟩ = Except.error "Wrong tensor shape" ∧
    frobenius_normSq ⟨1, 1, 3, fun _ _ _ => 0⟩ = Except.error "Wrong tensor shape" ∧
    qdot ⟨1, 2, 4, fun _ _ _ => 0⟩ ⟨3, 1, 4, fun _ _ _ => 0⟩ =
      Except.error "Wrong tensor shape or shapes mismatch" ∧
    cm2qm ⟨3, 2, fun _ _ => 0⟩ = Except.error "Supplied matrix has odd shape" :=
  ⟨((claim9_shape_errors ⟨1, 1, 3, fun _ _ _ => 0⟩ ⟨1, 1, 3, fun _ _ _ => 0⟩
      ⟨0, 0, fun _ _ => 0⟩ none).1 (by decide)).1,
   ((claim9_shape_errors ⟨1, 1, 3, fun _ _ _ => 0⟩ ⟨1, 1, 3, fun _ _ _ => 0⟩
      ⟨0, 0, fun _ _ => 0⟩ none).1 (by decide)).2.1,
   (claim9_shape_errors ⟨1, 2, 4, fun _ _ _ => 0⟩ ⟨3, 1, 4, fun _ _ _ => 0⟩
      ⟨0, 0, fun _ _ => 0⟩ none).2.1 (by decide),
   (claim9_shape_errors ⟨1, 1, 3, fun _ _ _ => 0⟩ ⟨1, 1, 3, fun _ _ _ => 0⟩
      ⟨3, 2, fun _ _ => 0⟩ none).2.2 (Or.inl (by decide))⟩

/-! Claim C7: isomorphism round-trip. -/

/-- Claim C7: for every quaternion tensor of shape `(N, M, 4)`, the
forward map succeeds, the inverse map succeeds on its output, and the
round-trip reproduces the input exactly (numpy `==` on every in-range
entry). -/
theorem claim7_roundtrip (Q : Tensor3) (h : Q.k = 4) :
    qm2cm Q none = Except.ok (qm2cmMat Q, none) ∧
    cm2qm (qm2cmMat Q) = Except.ok (cm2qmMat (qm2cmMat Q)) ∧
    Tensor3.ExtEq (cm2qmMat (qm2cmMat Q)) Q := by
  refine ⟨by simp [qm2cm, h], ?_, ?_⟩
  · unfold cm2qm
    rw [if_neg]
    simp [qm2cmMat, Nat.mul_mod_right]
  · have hn : (cm2qmMat (qm2cmMat Q)).n = Q.n := by
      simp [cm2qmMat, qm2cmMat]
    have hm : (cm2qmMat (qm2cmMat Q)).m = Q.m := by
      simp [cm2qmMat, qm2cmMat]
    have hk : (cm2qmMat (qm2cmMat Q)).k = Q.k := by
      simp [cm2qmMat, h]
    refine ⟨hn, hm, hk, fun i hi j hj c hc => ?_⟩
    rw [hn] at hi
    rw [hm] at hj
    have hc4 : c < 4 := by
      have := hc
      simp only [cm2qmMat] at this
      exact this
    have hmm : (qm2cmMat Q).m / 2 = Q.m := by simp [qm2cmMat]
    have hjm : ¬ (Q.m + j < Q.m) := by omega
    interval_cases c
    · simp [cm2qmMat, qm2cmMat, hi, hj]
    · simp [cm2qmMat, qm2cmMat, hi, hj]
    · simp [cm2qmMat, qm2cmMat, hmm, hi, hj, hjm]
    · simp [cm2qmMat, qm2cmMat, hmm, hi, hj, hjm]

/-- Witness for claim C7 at a concrete `1 × 1 × 4` tensor. -/
theorem claim7_witness :
    (Tensor3.mk 1 1 4 (fun _ _ c => (c : ℚ))).k = 4 ∧
    (qm2cm ⟨1, 1, 4, fun _ _ c => (c : ℚ)⟩ none =
      Except.ok (qm2cmMat ⟨1, 1, 4, fun _ _ c => (c : ℚ)⟩, none) ∧
    cm2qm (qm2cmMat ⟨1, 1, 4, fun _ _ c => (c : ℚ)⟩) =
      Except.ok (cm2qmMat (qm2cmMat ⟨1, 1, 4, fun _ _ c => (c : ℚ)⟩)) ∧
    Tensor3.ExtEq (cm2qmMat (qm2cmMat ⟨1, 1, 4, fun _ _ c => (c : ℚ)⟩))
      ⟨1, 1, 4, fun _ _ c => (c : ℚ)⟩) :=
  ⟨rfl, claim7_roundtrip ⟨1, 1, 4, fun _ _ c => (c : ℚ)⟩ rfl⟩

end ImgRec

namespace ImgRec

/-! Claim C8: norm agreement between the quaternion Frobenius norm and
the complex Frobenius norm of the embedding. -/

theorem cSumSq_qm2cmMat (Q : Tensor3) (h : Q.k = 4) :
    cSumSq (qm2cmMat Q) = 2 * sumSq Q := by
  have hsplit : ∀ (g : ℕ → ℚ) (t : ℕ),
      sumTo g (2 * t) = sumTo g t + sumTo (fun i => g (t + i)) t := by
    intro g t
    rw [two_mul, sumTo_add_split]
  have hjm : ∀ j : ℕ, ¬ (Q.m + j < Q.m) := by intro j; omega
  have hin : ∀ i : ℕ, ¬ (Q.n + i < Q.n) := by intro i; omega
  have rowTop : ∀ i, i < Q.n →
      sumTo (fun j => ((qm2cmMat Q).data i j).normSq) (2 * Q.m) =
        sumTo (fun j => Q.data i j 0 ^ 2 + Q.data i j 1 ^ 2) Q.m +
        sumTo (fun j => Q.data i j 2 ^ 2 + Q.data i j 3 ^ 2) Q.m := by
    intro i hi
    rw [hsplit]
    congr 1
    · refine sumTo_congr _ _ _ (fun j hj => ?_)
      simp [qm2cmMat, hi, hj, CQ.normSq]
    · refine sumTo_congr _ _ _ (fun j _ => ?_)
      simp [qm2cmMat, hi, hjm j, CQ.normSq]
  have rowBot : ∀ i,
      sumTo (fun j => ((qm2cmMat Q).data (Q.n + i) j).normSq) (2 * Q.m) =
        sumTo (fun j => Q.data i j 2 ^ 2 + Q.data i j 3 ^ 2) Q.m +
        sumTo (fun j => Q.data i j 0 ^ 2 + Q.data i j 1 ^ 2) Q.m := by
    intro i
    rw [hsplit]
    congr 1
    · refine sumTo_congr _ _ _ (fun j hj => ?_)
      rw [show ((qm2cmMat Q).data (Q.n + i) j) =
          -CQ.conj ⟨Q.data i j 2, Q.data i j 3⟩ by
        simp [qm2cmMat, hin i, hj]]
      rw [CQ.normSq_neg, CQ.normSq_conj]
      simp [CQ.normSq]
    · refine sumTo_congr _ _ _ (fun j _ => ?_)
      rw [show ((qm2cmMat Q).data (Q.n + i) (Q.m + j)) =
          CQ.conj ⟨Q.data i j 0, Q.data i j 1⟩ by
        simp [qm2cmMat, hin i, hjm j]]
      rw [CQ.normSq_conj]
      simp [CQ.normSq]
  have hinner : ∀ i j : ℕ,
      sumTo (fun c => Q.data i j c ^ 2) Q.k =
        (Q.data i j 0 ^ 2 + Q.data i j 1 ^ 2) + (Q.data i j 2 ^ 2 + Q.data i j 3 ^ 2) := by
    intro i j
    rw [h]
    simp [sumTo]
    ring
  calc cSumSq (qm2cmMat Q)
      = sumTo (fun i => sumTo (fun j => ((qm2cmMat Q).data i j).normSq) (2 * Q.m)) (2 * Q.n) :=
        rfl
    _ = sumTo (fun i => sumTo (fun j => ((qm2cmMat Q).data i j).normSq) (2 * Q.m)) Q.n +
        sumTo (fun i => sumTo (fun j => ((qm2cmMat Q).data (Q.n + i) j).normSq) (2 * Q.m)) Q.n :=
        hsplit _ _
    _ = sumTo (fun i => sumTo (fun j => Q.data i j 0 ^ 2 + Q.data i j 1 ^ 2) Q.m +
          sumTo (fun j => Q.data i j 2 ^ 2 + Q.data i j 3 ^ 2) Q.m) Q.n +
        sumTo (fun i => sumTo (fun j => Q.data i j 2 ^ 2 + Q.data i j 3 ^ 2) Q.m +
          sumTo (fun j => Q.data i j 0 ^ 2 + Q.data i j 1 ^ 2) Q.m) Q.n := by
        congr 1
        · exact sumTo_congr _ _ _ (fun i hi => rowTop i hi)
        · exact sumTo_congr _ _ _ (fun i _ => rowBot i)
    _ = 2 * sumSq Q := by
        unfold sumSq
        rw [sumTo_congr _
          (fun i => sumTo (fun j => (Q.data i j 0 ^ 2 + Q.data i j 1 ^ 2) +
            (Q.data i j 2 ^ 2 + Q.data i j 3 ^ 2)) Q.m) Q.n
          (fun i _ => sumTo_congr _ _ _ (fun j _ => hinner i j))]
        rw [sumTo_congr (fun i => sumTo (fun j => (Q.data i j 0 ^ 2 + Q.data i j 1 ^ 2) +
            (Q.data i j 2 ^ 2 + Q.data i j 3 ^ 2)) Q.m)
          (fun i => sumTo (fun j => Q.data i j 0 ^ 2 + Q.data i j 1 ^ 2) Q.m +
            sumTo (fun j => Q.data i j 2 ^ 2 + Q.data i j 3 ^ 2) Q.m) Q.n
          (fun i _ => sumTo_add_distrib _ _ _)]
        rw [sumTo_add_distrib, sumTo_add_distrib]
        ring

/-- Claim C8: for every quaternion tensor of shape `(N, M, 4)`, the
shape check passes and the quaternion Frobenius norm (the real square
root of `sumSq`) equals the complex Frobenius norm of the embedded
matrix divided by the square root of 2, exactly. -/
theorem claim8_norm_agreement (Q : Tensor3) (h : Q.k = 4) :
    frobenius_normSq Q = Except.ok (sumSq Q) ∧
    Real.sqrt ((sumSq Q : ℚ) : ℝ) =
      Real.sqrt ((cSumSq (qm2cmMat Q) : ℚ) : ℝ) / Real.sqrt 2 := by
  refine ⟨by simp [frobenius_normSq, h], ?_⟩
  have h2 : ((cSumSq (qm2cmMat Q) : ℚ) : ℝ) = 2 * ((sumSq Q : ℚ) : ℝ) := by
    rw [cSumSq_qm2cmMat Q h]
    push_cast
    ring
  rw [h2, Real.sqrt_mul (by norm_num : (0:ℝ) ≤ 2)]
  rw [mul_comm, mul_div_assoc, div_self (Real.sqrt_ne_zero'.mpr (by norm_num)), mul_one]

/-- Witness for claim C8 at a concrete `1 × 1 × 4` tensor. -/
theorem claim8_witness :
    (Tensor3.mk 1 1 4 (fun _ _ c => (c : ℚ))).k = 4 ∧
    (frobenius_normSq ⟨1, 1, 4, fun _ _ c => (c : ℚ)⟩ =
      Except.ok (sumSq ⟨1, 1, 4, fun _ _ c => (c : ℚ)⟩) ∧
    Real.sqrt ((sumSq ⟨1, 1, 4, fun _ _ c => (c : ℚ)⟩ : ℚ) : ℝ) =
      Real.sqrt ((cSumSq (qm2cmMat ⟨1, 1, 4, fun _ _ c => (c : ℚ)⟩) : ℚ) : ℝ) / Real.sqrt 2) :=
  ⟨rfl, claim8_norm_agreement ⟨1, 1, 4, fun _ _ c => (c : ℚ)⟩ rfl⟩

end ImgRec

namespace ImgRec

/-! Helper lemmas about one loop body pass and the norm array. -/

theorem stepState_X (O : Oracles) (lam rot rank_mult : ℚ) (X0 : CTensor)
    (maskC : BTensor) (st : LoopState) :
    (stepState O lam rot rank_mult X0 maskC st).X =
      reimpose X0 maskC (cmul (newU O lam st) (newV O lam st)) := rfl

theorem npSet_ok (xs : List ℚ) (i : ℕ) (v : ℚ) (ys : List ℚ)
    (h : npSet xs i v = Except.ok ys) : ys = xs.set i v := by
  unfold npSet at h
  split at h
  · injection h with h1
    exact h1.symm
  · exact absurd h (by simp)

theorem set_succ_getD_zero (xs : List ℚ) (i : ℕ) (v : ℚ) :
    (xs.set (i + 1) v).getD 0 0 = xs.getD 0 0 := by
  cases xs <;> rfl

/-! Claim C2: the re-imposition step. -/

/-- Concrete oracle bundle used for the explicit runs below: `pinv`
entries all zero, all `eigvalsh` values 1, all norms 1, a constant
seeding function and a frozen stream. -/
def Ozero : Oracles :=
  ⟨fun _ _ _ => 0, fun _ _ => 1, fun _ => 1, fun _ => 0, id, fun _ _ => 0, fun s _ => s⟩

/-- Concrete working matrix for the C2 counterexample: the 2 × 2
complex identity, whose (0,0) entry is nonzero. -/
def Xdiag2 : CTensor := ⟨2, 2, fun i j => if i = j then ⟨1, 0⟩ else 0⟩

/-- A 2 × 2 all-false (fully unobserved) tiled mask. -/
def maskFalse2 : BTensor := ⟨2, 2, fun _ _ => false⟩

/-- Concrete loop state for the C2 counterexample: `X = X0 = Xdiag2`,
zero factors, rank 2. -/
def stC2 : LoopState := ⟨Xdiag2, ⟨2, 2, fun _ _ => 0⟩, ⟨2, 2, fun _ _ => 0⟩, 2⟩

/-- Claim C2 as stated is false: after the factor updates the source
executes `X[~mask_c] += (U.dot(V))[~mask_c]` (linalg.py:254), adding the
estimate to `X0` at unobserved entries instead of overwriting them.  At
this concrete state the estimate is the zero matrix, yet the unobserved
entry (0,0) of the new `X` is 1 (the `X0` value), not the estimate's 0. -/
theorem claim2_counterexample :
    maskFalse2.data 0 0 = false ∧
    (stepState Ozero (1/1000) 10 (9/10) Xdiag2 maskFalse2 stC2).X.data 0 0 ≠
      (cmul (newU Ozero (1/1000) stC2) (newV Ozero (1/1000) stC2)).data 0 0 := by
  have hV : ∀ s j, (newV Ozero (1/1000) stC2).data s j = 0 := by
    intro s j
    show csumTo _ _ = 0
    refine csumTo_eq_zero _ _ (fun t _ => ?_)
    exact CQ.zero_mul _
  have hE : (cmul (newU Ozero (1/1000) stC2) (newV Ozero (1/1000) stC2)).data 0 0 = 0 := by
    show csumTo _ _ = 0
    refine csumTo_eq_zero _ _ (fun s _ => ?_)
    rw [hV s 0]
    exact CQ.mul_zero _
  refine ⟨rfl, ?_⟩
  rw [stepState_X]
  show (if maskFalse2.data 0 0 then Xdiag2.data 0 0
    else Xdiag2.data 0 0 + (cmul (newU Ozero (1/1000) stC2) (newV Ozero (1/1000) stC2)).data 0 0) ≠ _
  rw [hE]
  show Xdiag2.data 0 0 + 0 ≠ 0
  rw [CQ.add_zero]
  show (⟨1, 0⟩ : CQ) ≠ 0
  simp [CQ.zero_def]

/-- Claim C2, amended: after each iteration `X` has `X0`'s shape,
observed entries are reset to `X0`, and each unobserved entry equals the
`X0` entry PLUS the corresponding entry of the current estimate
`U·V` (computed from the freshly updated, pre-truncation factors) —
an increment, not an overwrite. -/
theorem claim2_reimpose_adds (O : Oracles) (lam rot rank_mult : ℚ) (X0 : CTensor)
    (maskC : BTensor) (st : LoopState) (i j : ℕ) :
    (stepState O lam rot rank_mult X0 maskC st).X.n = X0.n ∧
    (stepState O lam rot rank_mult X0 maskC st).X.m = X0.m ∧
    (stepState O lam rot rank_mult X0 maskC st).X.data i j =
      (if maskC.data i j then X0.data i j
       else X0.data i j + (cmul (newU O lam st) (newV O lam st)).data i j) := by
  rw [stepState_X]
  exact ⟨rfl, rfl, rfl⟩

/-! Claim C6: rank monotonicity and the shrink formula. -/

/-- Claim C6: one loop body pass never increases the rank.  Under the
run's invariants (`V` has `c_rank` rows, `c_rank ≥ 2`, shrink
multiplier in `(0,1)`), the new rank is at most the old one, stays at
least 2, the factor shapes stay consistent (so the invariant propagates
across the whole run), and when the overestimation test `μ > ρ` fires
the new rank is exactly `max(k + 2, int(r·γ))` for `k` the index of the
maximal consecutive eigenvalue ratio of `Uᴴ·U`. -/
theorem claim6_rank_monotone (O : Oracles) (lam rot rank_mult : ℚ) (X0 : CTensor)
    (maskC : BTensor) (st : LoopState) (hg0 : 0 < rank_mult) (hg1 : rank_mult < 1)
    (hr : 2 ≤ st.c_rank) (hv : st.V.n = st.c_rank) :
    (stepState O lam rot rank_mult X0 maskC st).c_rank ≤ st.c_rank ∧
    2 ≤ (stepState O lam rot rank_mult X0 maskC st).c_rank ∧
    (stepState O lam rot rank_mult X0 maskC st).V.n =
      (stepState O lam rot rank_mult X0 maskC st).c_rank ∧
    (stepState O lam rot rank_mult X0 maskC st).U.m =
      (stepState O lam rot rank_mult X0 maskC st).c_rank ∧
    (rot < muOf O lam st →
      (stepState O lam rot rank_mult X0 maskC st).c_rank =
        max (kOf O lam st + 2) (truncInt ((st.c_rank : ℚ) * rank_mult)).toNat) := by
  have hlen : (eigsOf O lam st).length = st.c_rank := by
    unfold eigsOf
    rw [sortDesc_length, List.length_map, List.length_range]
    exact hv
  have hql : (quotsOf O lam st).length = st.c_rank - 1 := by
    unfold quotsOf
    rw [List.length_zipWith, List.length_tail, hlen]
    omega
  have hqne : quotsOf O lam st ≠ [] := by
    intro hnil
    rw [hnil] at hql
    simp at hql
    omega
  have hk : kOf O lam st < st.c_rank - 1 := by
    have := argmax_lt_length (quotsOf O lam st) hqne
    rw [hql] at this
    exact this
  have hk2 : kOf O lam st + 2 ≤ st.c_rank := by omega
  have hrpos : (0 : ℚ) < (st.c_rank : ℚ) := by
    exact_mod_cast Nat.lt_of_lt_of_le (by norm_num) hr
  have hprod : (0 : ℚ) ≤ (st.c_rank : ℚ) * rank_mult :=
    le_of_lt (mul_pos hrpos hg0)
  have htr : truncInt ((st.c_rank : ℚ) * rank_mult) = ⌊(st.c_rank : ℚ) * rank_mult⌋ := by
    unfold truncInt
    rw [if_pos hprod]
  have hfl : ⌊(st.c_rank : ℚ) * rank_mult⌋ < (st.c_rank : ℤ) := by
    rw [Int.floor_lt]
    push_cast
    exact mul_lt_of_lt_one_right hrpos hg1
  have htn : (truncInt ((st.c_rank : ℚ) * rank_mult)).toNat ≤ st.c_rank := by
    rw [htr]
    omega
  have hsr : shrunkRank O lam rank_mult st ≤ st.c_rank := by
    unfold shrunkRank
    exact max_le hk2 htn
  have hsr2 : 2 ≤ shrunkRank O lam rank_mult st := by
    unfold shrunkRank
    exact le_max_of_le_left (by omega)
  unfold stepState
  by_cases hmu : rot < muOf O lam st
  · simp only [if_pos hmu]
    refine ⟨hsr, hsr2, ?_, ?_, fun _ => rfl⟩
    · show (sliceRows (newV O lam st) (shrunkRank O lam rank_mult st)).n = _
      unfold sliceRows
      show min (shrunkRank O lam rank_mult st) (newV O lam st).n = _
      have hvn : (newV O lam st).n = st.c_rank := hv
      rw [hvn]
      exact min_eq_left hsr
    · show (sliceCols (newU O lam st) (shrunkRank O lam rank_mult st)).m = _
      unfold sliceCols
      show min (shrunkRank O lam rank_mult st) (newU O lam st).m = _
      have hum : (newU O lam st).m = st.c_rank := hv
      rw [hum]
      exact min_eq_left hsr
  · simp only [if_neg hmu]
    exact ⟨le_refl _, hr, hv, hv, fun hmu2 => absurd hmu2 hmu⟩

/-- Witness for claim C6 at a concrete state of rank 2. -/
theorem claim6_witness :
    (stepState Ozero (1/1000) 10 (9/10) Xdiag2 maskFalse2 stC2).c_rank ≤ stC2.c_rank ∧
    2 ≤ (stepState Ozero (1/1000) 10 (9/10) Xdiag2 maskFalse2 stC2).c_rank ∧
    (stepState Ozero (1/1000) 10 (9/10) Xdiag2 maskFalse2 stC2).V.n =
      (stepState Ozero (1/1000) 10 (9/10) Xdiag2 maskFalse2 stC2).c_rank ∧
    (stepState Ozero (1/1000) 10 (9/10) Xdiag2 maskFalse2 stC2).U.m =
      (stepState Ozero (1/1000) 10 (9/10) Xdiag2 maskFalse2 stC2).c_rank ∧
    (10 < muOf Ozero (1/1000) stC2 →
      (stepState Ozero (1/1000) 10 (9/10) Xdiag2 maskFalse2 stC2).c_rank =
        max (kOf Ozero (1/1000) stC2 + 2)
          (truncInt ((stC2.c_rank : ℚ) * (9/10))).toNat) :=
  claim6_rank_monotone Ozero (1/1000) 10 (9/10) Xdiag2 maskFalse2 stC2
    (by norm_num) (by norm_num) (by decide) rfl

end ImgRec

namespace ImgRec

theorem lrqmcLoop_ok (O : Oracles) (lam rot rank_mult rel_tol : ℚ) (max_iter : ℕ)
    (X0 : CTensor) (maskC : BTensor) (fuel : ℕ) :
    ∀ (ix : ℕ) (st : LoopState) (norms : List ℚ) (stF : LoopState) (normsF : List ℚ),
    lrqmcLoop O lam rot rank_mult rel_tol max_iter X0 maskC fuel ix st norms =
      Except.ok (stF, normsF) →
    (∃ stP, stF = stepState O lam rot rank_mult X0 maskC stP) ∧
    normsF.length = norms.length ∧ normsF.getD 0 0 = norms.getD 0 0 := by
  induction fuel with
  | zero =>
    intro ix st norms stF normsF h
    exact absurd h (by simp [lrqmcLoop])
  | succ f ih =>
    intro ix st norms stF normsF h
    unfold lrqmcLoop at h
    split at h
    · exact absurd h (by simp)
    · rename_i norms1 heq
      have hn1 : norms1 = norms.set (ix + 1)
          (O.fro (matSub (stepState O lam rot rank_mult X0 maskC st).X
            (cmul (stepState O lam rot rank_mult X0 maskC st).U
              (stepState O lam rot rank_mult X0 maskC st).V))) :=
        npSet_ok _ _ _ _ heq
      have hlen : norms1.length = norms.length := by
        rw [hn1, List.length_set]
      have hgd : norms1.getD 0 0 = norms.getD 0 0 := by
        rw [hn1, set_succ_getD_zero]
      split at h
      · injection h with h1
        have h2 : stepState O lam rot rank_mult X0 maskC st = stF := congrArg Prod.fst h1
        have h3 : norms1 = normsF := congrArg Prod.snd h1
        exact ⟨⟨st, h2.symm⟩, h3 ▸ hlen, h3 ▸ hgd⟩
      · split at h
        · injection h with h1
          have h2 : stepState O lam rot rank_mult X0 maskC st = stF := congrArg Prod.fst h1
          have h3 : norms1 = normsF := congrArg Prod.snd h1
          exact ⟨⟨st, h2.symm⟩, h3 ▸ hlen, h3 ▸ hgd⟩
        · obtain ⟨hex, hl2, hg2⟩ := ih (ix + 1) _ norms1 stF normsF h
          exact ⟨hex, hl2.trans hlen, hg2.trans hgd⟩

end ImgRec

namespace ImgRec

/-- Claim C5: mask pinning.  First part: after every loop iteration,
every entry of the working matrix `X` at an observed position of the
tiled mask equals the corresponding `X0` entry.  Second part: whenever a
run of `lrqmc` returns (with the mask shaped like the image), every
reconstructed quaternion entry at an observed position equals the
original input entry exactly, for all four components. -/
theorem claim5_mask_pinning (O : Oracles) (lam rot rank_mult : ℚ) :
    (∀ (X0 : CTensor) (maskC : BTensor) (st : LoopState) (i j : ℕ),
      maskC.data i j = true →
      (stepState O lam rot rank_mult X0 maskC st).X.data i j = X0.data i j) ∧
    (∀ (g0 : ℕ) (qmat : Tensor3) (mask : BTensor), mask.n = qmat.n → mask.m = qmat.m →
      ∀ (ir : Option ℤ) (mi : ℕ) (tol : ℚ) (rn : Bool) (rs : Option ℤ)
        (q : Tensor3) (U V : CTensor) (ns : Option (List ℚ)),
      lrqmc O g0 qmat mask ir lam mi tol rot rank_mult rn rs = Except.ok (q, U, V, ns) →
      ∀ i j, i < qmat.n → j < qmat.m → mask.data i j = true →
        ∀ c, c < 4 → q.data i j c = qmat.data i j c) := by
  constructor
  · intro X0 maskC st i j hm
    rw [stepState_X]
    show (if maskC.data i j then X0.data i j else _) = X0.data i j
    rw [hm]
    simp
  · intro g0 qmat mask hmn hmm ir mi tol rn rs q U V ns h i j hi hj hm c hc
    unfold lrqmc at h
    split at h
    · simp at h
    · rename_i Xm heq
      unfold qm2cm at heq
      split at heq
      · simp at heq
      · injection heq with heq1
        subst heq1
        dsimp only [Option.map, Option.getD] at h
        split at h
        · rename_i e heq2
          rw [npSet, if_pos (by simp)] at heq2
          simp at heq2
        · rename_i norms0 heq2
          split at h
          · simp at h
          · rename_i r heq3
            obtain ⟨⟨stP, hstep⟩, _, _⟩ :=
              lrqmcLoop_ok O lam rot rank_mult tol mi _ _ _ 0 _ norms0 r.1 r.2 heq3
            have hXn : r.1.X.n = 2 * qmat.n := by rw [hstep]; rfl
            have hXm2 : r.1.X.m = 2 * qmat.m := by rw [hstep]; rfl
            split at h
            · rename_i e heq4
              rw [cm2qm, if_neg (by rw [hXn, hXm2]; simp [Nat.mul_mod_right])] at heq4
              simp at heq4
            · rename_i q1 heq4
              injection h with h5
              have hq : q1 = q := congrArg (fun t => t.1) h5
              rw [cm2qm, if_neg (by rw [hXn, hXm2]; simp [Nat.mul_mod_right])] at heq4
              injection heq4 with heq5
              rw [← hq, ← heq5]
              have hpin : ∀ p p2, (tileMask mask).data p p2 = true →
                  r.1.X.data p p2 = (qm2cmMat qmat).data p p2 := by
                intro p p2 hpq
                rw [hstep, stepState_X]
                show (if (tileMask mask).data p p2 then (qm2cmMat qmat).data p p2 else _) =
                  (qm2cmMat qmat).data p p2
                rw [hpq]
                simp
              have ht1 : (tileMask mask).data i j = true := by
                show mask.data (i % mask.n) (j % mask.m) = true
                rw [hmn, hmm, Nat.mod_eq_of_lt hi, Nat.mod_eq_of_lt hj]
                exact hm
              have ht2 : (tileMask mask).data i (qmat.m + j) = true := by
                show mask.data (i % mask.n) ((qmat.m + j) % mask.m) = true
                rw [hmn, hmm, Nat.mod_eq_of_lt hi, Nat.add_mod_left, Nat.mod_eq_of_lt hj]
                exact hm
              have hjm : ¬ (qmat.m + j < qmat.m) := by omega
              have hx1 : (qm2cmMat qmat).data i j = ⟨qmat.data i j 0, qmat.data i j 1⟩ := by
                simp [qm2cmMat, hi, hj]
              have hx2 : (qm2cmMat qmat).data i (qmat.m + j) =
                  ⟨qmat.data i j 2, qmat.data i j 3⟩ := by
                simp [qm2cmMat, hi, hjm, Nat.add_sub_cancel_left]
              have hdiv : r.1.X.m / 2 = qmat.m := by rw [hXm2]; omega
              interval_cases c
              · show (r.1.X.data i j).re = _
                rw [hpin i j ht1, hx1]
              · show (r.1.X.data i j).im = _
                rw [hpin i j ht1, hx1]
              · show (r.1.X.data i (r.1.X.m / 2 + j)).re = _
                rw [hdiv, hpin i (qmat.m + j) ht2, hx2]
              · show (r.1.X.data i (r.1.X.m / 2 + j)).im = _
                rw [hdiv, hpin i (qmat.m + j) ht2, hx2]

end ImgRec

namespace ImgRec

/-- Claim C4, amended: the norm array is preallocated with
`max_iter + 1` slots (linalg.py:244) and returned whole: every
successful run that returns norms yields a sequence of exactly
`max_iter + 1` entries — regardless of how many iterations were
performed — whose entry 0 is the iteration-0 norm `‖X − U·V‖`; entries
beyond the performed iterations keep their initial value 0. -/
theorem claim4_norms_length (O : Oracles) (g0 : ℕ) (qmat : Tensor3) (mask : BTensor)
    (ir : Option ℤ) (lam : ℚ) (mi : ℕ) (tol rot rank_mult : ℚ) (rs : Option ℤ)
    (q : Tensor3) (U V : CTensor) (ns : List ℚ)
    (h : lrqmc O g0 qmat mask ir lam mi tol rot rank_mult true rs =
      Except.ok (q, U, V, some ns)) :
    ns.length = mi + 1 ∧
    ns.getD 0 0 = O.fro (matSub (qm2cmMat qmat)
      (cmul (initU O g0 rs qmat.n (c_rank_of ir qmat.n qmat.m).toNat)
        (initV O g0 rs qmat.n qmat.m (c_rank_of ir qmat.n qmat.m).toNat))) := by
  unfold lrqmc at h
  split at h
  · simp at h
  · rename_i Xm heq
    unfold qm2cm at heq
    split at heq
    · simp at heq
    · injection heq with heq1
      subst heq1
      dsimp only [Option.map, Option.getD] at h
      split at h
      · rename_i e heq2
        rw [npSet, if_pos (by simp)] at heq2
        simp at heq2
      · rename_i norms0 heq2
        have hn0 : norms0 = (List.replicate (mi + 1) (0:ℚ)).set 0
            (O.fro (matSub (qm2cmMat qmat)
              (cmul (initU O g0 rs qmat.n (c_rank_of ir qmat.n qmat.m).toNat)
                (initV O g0 rs qmat.n qmat.m (c_rank_of ir qmat.n qmat.m).toNat)))) :=
          npSet_ok _ _ _ _ heq2
        split at h
        · simp at h
        · rename_i r heq3
          obtain ⟨-, hlen, hgd⟩ :=
            lrqmcLoop_ok O lam rot rank_mult tol mi _ _ _ 0 _ norms0 r.1 r.2 heq3
          split at h
          · simp at h
          · rename_i q1 heq4
            injection h with h5
            have hns : r.2 = ns := by
              have h6 : (if true then some r.2 else none) = some ns :=
                congrArg (fun t => t.2.2.2) h5
              simpa using h6
            constructor
            · rw [← hns, hlen, hn0, List.length_set, List.length_replicate]
            · rw [← hns, hgd, hn0, List.replicate_succ]
              rfl

end ImgRec

namespace ImgRec

/-! Concrete runs used by the remaining claims: a 2 × 2 × 4 image, a
fully observed mask, and the `Ozero` oracle bundle (all norms 1), under
which the very first loop pass meets the relative tolerance. -/

/-- Concrete 2 × 2 × 4 quaternion image with distinct entries. -/
def qmatW : Tensor3 := ⟨2, 2, 4, fun i j c => (i : ℚ) + 2 * j + 4 * c⟩

/-- Fully observed 2 × 2 mask. -/
def maskTrue2 : BTensor := ⟨2, 2, fun _ _ => true⟩

/-- The loop state `lrqmc` builds for `qmatW` with `init_rank` absent
and seed 0: the embedded matrix and the seeded random factors. -/
def stW : LoopState :=
  ⟨qm2cmMat qmatW,
    initU Ozero 0 (some 0) qmatW.n (c_rank_of none qmatW.n qmatW.m).toNat,
    initV Ozero 0 (some 0) qmatW.n qmatW.m (c_rank_of none qmatW.n qmatW.m).toNat,
    (c_rank_of none qmatW.n qmatW.m).toNat⟩

/-- The state after the single loop body pass of the concrete run. -/
def stepW : LoopState :=
  stepState Ozero (1/1000) 10 (9/10) (qm2cmMat qmatW) (tileMask maskTrue2) stW

theorem c4loop_eq :
    lrqmcLoop Ozero (1/1000) 10 (9/10) (1/1000) 2 (qm2cmMat qmatW) (tileMask maskTrue2)
      (2+2) 0 stW [1, 0, 0] = Except.ok (stepW, [1, 1, 0]) := by
  have hfro : ∀ z, Ozero.fro z = 1 := fun _ => rfl
  rw [show (2+2 : ℕ) = 3+1 from rfl]
  rw [lrqmcLoop]
  simp only [hfro]
  rw [show npSet [1, 0, 0] (0+1) 1 = Except.ok [1, 1, 0] from rfl]
  dsimp only
  rw [if_pos (show |([1,1,0] : List ℚ).getD (0+1) 0 - ([1,1,0] : List ℚ).getD 0 0| /
    ([1,1,0] : List ℚ).getD 0 0 < 1/1000 by norm_num [List.getD])]
  rfl

theorem c4run_eq :
    lrqmc Ozero 0 qmatW maskTrue2 none (1/1000) 2 (1/1000) 10 (9/10) true (some 0) =
      Except.ok (cm2qmMat stepW.X, stepW.U, stepW.V, some [1, 1, 0]) := by
  have hfro : ∀ z, Ozero.fro z = 1 := fun _ => rfl
  unfold lrqmc
  rw [show qm2cm qmatW (some maskTrue2) =
    Except.ok (qm2cmMat qmatW, some (tileMask maskTrue2)) from rfl]
  dsimp only [Option.map, Option.getD]
  simp only [hfro]
  rw [show npSet (List.replicate (2+1) (0:ℚ)) 0 1 = Except.ok [1, 0, 0] from rfl]
  dsimp only
  rw [show (⟨qm2cmMat qmatW,
      initU Ozero 0 (some 0) qmatW.n (c_rank_of none qmatW.n qmatW.m).toNat,
      initV Ozero 0 (some 0) qmatW.n qmatW.m (c_rank_of none qmatW.n qmatW.m).toNat,
      (c_rank_of none qmatW.n qmatW.m).toNat⟩ : LoopState) = stW from rfl]
  rw [c4loop_eq]
  dsimp only
  rw [show cm2qm stepW.X = Except.ok (cm2qmMat stepW.X) from rfl]
  dsimp only
  rw [if_pos trivial]

/-! Claim C1: iteration exhaustion. -/

/-- Claim C1 fails on the code: with `maxIter = 0` (and on every
exhaustion path) the loop body writes `norms[ix + 1]` into the array of
length `max_iter + 1` before checking `ix >= max_iter`
(linalg.py:266, 278), so the run raises an index error instead of
returning the best available estimate; here the whole concrete run
evaluates to that error. -/
theorem claim1_exhaustion_index_error :
    lrqmc Ozero 0 qmatW maskTrue2 none (1/1000) 0 (1/1000) 10 (9/10) true (some 0) =
      Except.error "index out of bounds" := rfl

/-! Claim C4: the returned norm sequence. -/

/-- Claim C4 as stated is false: this concrete run meets the tolerance
after the single loop pass — so exactly two norms are recorded
(iterations 0 and 1) — yet the returned sequence is the whole
preallocated array `[1, 1, 0]` of length `maxIter + 1 = 3`, whose
trailing zero was never recorded (under `Ozero` every recorded norm
is 1). -/
theorem claim4_counterexample :
    lrqmc Ozero 0 qmatW maskTrue2 none (1/1000) 2 (1/1000) 10 (9/10) true (some 0) =
      Except.ok (cm2qmMat stepW.X, stepW.U, stepW.V, some [1, 1, 0]) ∧
    ([1, 1, 0] : List ℚ).length ≠ 2 :=
  ⟨c4run_eq, by norm_num⟩

/-- Witness for the amended claim C4 on the concrete run. -/
theorem claim4_witness :
    ([1, 1, 0] : List ℚ).length = 2 + 1 ∧
    ([1, 1, 0] : List ℚ).getD 0 0 = Ozero.fro (matSub (qm2cmMat qmatW)
      (cmul (initU Ozero 0 (some 0) qmatW.n (c_rank_of none qmatW.n qmatW.m).toNat)
        (initV Ozero 0 (some 0) qmatW.n qmatW.m (c_rank_of none qmatW.n qmatW.m).toNat))) :=
  claim4_norms_length Ozero 0 qmatW maskTrue2 none (1/1000) 2 (1/1000) 10 (9/10) (some 0)
    (cm2qmMat stepW.X) stepW.U stepW.V [1, 1, 0] c4run_eq

/-- Witness for claim C5 on the concrete run: an observed entry of the
returned image equals the input entry. -/
theorem claim5_witness :
    (cm2qmMat stepW.X).data 0 1 2 = qmatW.data 0 1 2 :=
  (claim5_mask_pinning Ozero (1/1000) 10 (9/10)).2 0 qmatW maskTrue2 rfl rfl none 2 (1/1000)
    true (some 0) (cm2qmMat stepW.X) stepW.U stepW.V (some [1, 1, 0]) c4run_eq 0 1
    (by decide) (by decide) rfl 2 (by decide)

/-! Claim C10: seeded reproducibility. -/

/-- Claim C10: with an integer seed, the incoming global generator
state is irrelevant — `np.random.seed` overwrites it before the only
draws — so two invocations with the same seed and inputs produce
identical factor initializations and identical `lrqmc` outputs, for
every behaviour of the generator oracle. -/
theorem claim10_seed_determinism (O : Oracles) (g0 g1 : ℕ) (qmat : Tensor3) (mask : BTensor)
    (ir : Option ℤ) (lam : ℚ) (mi : ℕ) (tol rot rank_mult : ℚ) (rn : Bool) (s : ℤ)
    (n m r : ℕ) :
    initU O g0 (some s) n r = initU O g1 (some s) n r ∧
    initV O g0 (some s) n m r = initV O g1 (some s) n m r ∧
    lrqmc O g0 qmat mask ir lam mi tol rot rank_mult rn (some s) =
      lrqmc O g1 qmat mask ir lam mi tol rot rank_mult rn (some s) :=
  ⟨rfl, rfl, rfl⟩

end ImgRec
